import Mathlib

/-!
# mqtt-stream: a shallow embedding of `main.go`

The program bridges standard input/output with an MQTT broker.  The embedding
follows `main.go` function by function:

* `wait`     (lines 192-204)  the polling loop around a pending broker token;
* `stdin`    (lines 93-111)   the goroutine that reads lines and sends them on a channel;
* `stream`   (lines 115-190)  one session: connect, subscribe, the select loop;
* `main`     (lines 66-78)    the reconnect loop.

Goroutines, the broker and the clock are the environment.  Every function takes
the part of the environment it observes as an explicit script and returns the
trace of the calls it makes together with its return value.  A byte is a `Nat`
below 256, a byte string a `List Nat`; a Go `error` value is `Option Err`,
`none` being `nil`.
-/

namespace MqttStream

/-! ## Data model -/

/-- A byte string (`[]byte`, `string`): the list of its bytes. -/
abbrev Bytes := List Nat

/-- Every element is a byte. -/
def IsBytes (bs : Bytes) : Prop := ∀ b ∈ bs, b < 256

instance (bs : Bytes) : Decidable (IsBytes bs) := by
  unfold IsBytes; infer_instance

/-- The non-nil values of Go's `error` that the program can meet. -/
inductive Err where
  /-- The value `context.Canceled`. -/
  | canceled
  /-- The value `context.DeadlineExceeded`. -/
  | deadlineExceeded
  /-- The value `hex.InvalidByteError(b)`. -/
  | invalidByte (b : Nat)
  /-- The value `hex.ErrLength`. -/
  | errLength
  /-- An error made by a collaborator (broker client, input stream). -/
  | other (msg : String)
  /-- The value `fmt.Errorf(msg + ": %w", e)`. -/
  | wrap (msg : String) (e : Err)
  deriving DecidableEq, Repr

/-- The record `config` (lines 82-91).  The fields `from` and `to` are spelled
`from_` and `to_`. -/
structure config where
  host : String
  from_ : String
  to_ : String
  clientID : String
  username : String
  password : String
  hex : Bool
  echo : Bool
  deriving DecidableEq, Repr

/-- The calls a goroutine of the program makes on its collaborators, in the
order it makes them.  `cl` is the client handle that `mqtt.NewClient` returned
for the session. -/
inductive Effect where
  /-- The call `client.Connect()`. -/
  | connect (cl : Nat)
  /-- The call `client.Disconnect(quiesce)`. -/
  | disconnect (cl : Nat) (quiesce : Nat)
  /-- The call `client.Subscribe(topic, qos, callback)`. -/
  | subscribe (cl : Nat) (topic : String) (qos : Nat)
  /-- The call `client.Publish(topic, qos, retained, payload)`. -/
  | publish (cl : Nat) (topic : String) (qos : Nat) (retained : Bool) (payload : Bytes)
  /-- A write of `bytes` to `os.Stdout`. -/
  | stdout (bytes : Bytes)
  /-- The call `log.Error(e)`. -/
  | logError (e : Err)
  /-- The call `log.Debug(msg)` or `log.Debugf`. -/
  | logDebug (msg : String)
  /-- The send `connErr <- e`. -/
  | sendConnErr (e : Err)
  /-- The send `c <- data` on the channel of lines. -/
  | sendInput (data : Bytes)
  /-- The call `close(connErr)`. -/
  | closeConnErr
  deriving DecidableEq, Repr

/-! ## `encoding/hex` and `fmt`

The standard library is not part of the repository.  The functions the program
calls are written out after the library's code. -/

/-- The function `fromHexChar` of `encoding/hex`: the value of a hexadecimal
digit, `none` when the byte is not one. -/
def fromHexChar (c : Nat) : Option Nat :=
  if 48 ≤ c ∧ c ≤ 57 then some (c - 48)
  else if 97 ≤ c ∧ c ≤ 102 then some (c - 97 + 10)
  else if 65 ≤ c ∧ c ≤ 70 then some (c - 65 + 10)
  else none

/-- The function `hex.Decode`, two source bytes per round; a bad byte is
reported before a bad length. -/
def Decode : Bytes → Except Err Bytes
  | [] => .ok []
  | [p] =>
    match fromHexChar p with
    | none => .error (.invalidByte p)
    | some _ => .error .errLength
  | p :: q :: rest =>
    match fromHexChar p with
    | none => .error (.invalidByte p)
    | some a =>
      match fromHexChar q with
      | none => .error (.invalidByte q)
      | some b =>
        match Decode rest with
        | .error e => .error e
        | .ok out => .ok (((a * 16 + b) % 256) :: out)

/-- The function `hex.DecodeString`. -/
def DecodeString (s : Bytes) : Except Err Bytes := Decode s

/-- The table `"0123456789abcdef"` that `fmt` uses for the verb `%x`. -/
def ldigits : Bytes := [48, 49, 50, 51, 52, 53, 54, 55, 56, 57, 97, 98, 99, 100, 101, 102]

/-- The verbs the program formats a payload with. -/
inductive Verb where
  /-- The format `"%s"`. -/
  | s
  /-- The format `"%x"`. -/
  | x
  deriving DecidableEq, Repr

/-- The call `fmt.Sprintf(format, data)` for a byte slice: `%s` copies the
bytes, `%x` writes `ldigits[c>>4]` and `ldigits[c&0xF]` for every byte. -/
def Sprintf : Verb → Bytes → Bytes
  | .s, data => data
  | .x, [] => []
  | .x, c :: rest => ldigits.getD (c / 16) 0 :: ldigits.getD (c % 16) 0 :: Sprintf .x rest

/-- What `fmt.Fprintln(os.Stdout, s)` writes: the operand and a newline. -/
def Fprintln (s : Bytes) : Effect := .stdout (s ++ [10])

/-! ## `wait` (lines 192-204) -/

/-- What `wait` observes of its token and its context: the result of the i-th
call `token.WaitTimeout(500ms)`, the result of the call `ctx.Err()` that
follows the i-th unsuccessful poll, and the result of `token.Error()`. -/
structure WaitEnv where
  poll : Nat → Bool
  ctxErr : Nat → Option Err
  tokenErr : Option Err

/-- The way `wait` returned. -/
structure WaitResult where
  /-- The number of polls that reported not-complete. -/
  polls : Nat
  /-- Whether the last poll reported completion. -/
  completed : Bool
  /-- The returned error. -/
  err : Option Err
  deriving DecidableEq, Repr

/-- The loop of `wait`, from its i-th poll on; `none` when `fuel` polls were not
enough for it to return. -/
def waitLoop (env : WaitEnv) : Nat → Nat → Option WaitResult
  | 0, _ => none
  | fuel + 1, i =>
    if env.poll i then some ⟨i, true, env.tokenErr⟩
    else
      match env.ctxErr i with
      | some e => some ⟨i + 1, false, some e⟩
      | none => waitLoop env fuel (i + 1)

/-- The function `wait`. -/
def wait (env : WaitEnv) (fuel : Nat) : Option WaitResult := waitLoop env fuel 0

/-- The polling interval, in milliseconds. -/
def pollInterval : Nat := 500

/-- The deadline of the context of `wait`, in milliseconds. -/
def waitTimeout : Nat := 10000

/-- The clock model of one call of `wait`, in milliseconds since the call:
when the caller's context is cancelled, when the token completes (`none`:
never), and the error of the token. -/
structure Timing where
  cancelAt : Option Nat
  completeAt : Option Nat
  tokenErr : Option Err

/-- The value of `ctx.Err()` at time `t` for the context made by
`context.WithTimeout(ctx, 10s)`: the error of whichever came first, the
caller's cancellation or the deadline. -/
def ctxErrAt (cancelAt : Option Nat) (t : Nat) : Option Err :=
  match cancelAt with
  | some c =>
    if c ≤ t ∧ c < waitTimeout then some .canceled
    else if waitTimeout ≤ t then some .deadlineExceeded
    else none
  | none => if waitTimeout ≤ t then some .deadlineExceeded else none

/-- The environment of `wait` under the clock model: the i-th poll runs from
`500 * i` to `500 * (i + 1)` unless the token completes before. -/
def Timing.env (tm : Timing) : WaitEnv where
  poll := fun i =>
    match tm.completeAt with
    | some c => decide (c ≤ pollInterval * (i + 1))
    | none => false
  ctxErr := fun i => ctxErrAt tm.cancelAt (pollInterval * (i + 1))
  tokenErr := tm.tokenErr

/-- The time at which `wait` returns under the clock model. -/
def Timing.returnTime (tm : Timing) (r : WaitResult) : Nat :=
  if r.completed then max (pollInterval * r.polls) (tm.completeAt.getD 0)
  else pollInterval * r.polls

/-! ## `stdin` (lines 93-111) -/

/-- What one round of the read loop observes: whether `ctx.Done()` is ready at
the top of the round, and the values `data` and `err` that `buf.ReadLine()`
returns when it is called. -/
structure Read where
  done : Bool
  data : Bytes
  err : Option Err
  deriving DecidableEq, Repr

/-- The goroutine of `stdin` over the rounds of a script: its trace, and whether
it has returned (`false`: the loop is about to start another round). -/
def stdin : List Read → List Effect × Bool
  | [] => ([], false)
  | r :: rest =>
    if r.done then ([], true)
    else
      let logged : List Effect :=
        match r.err with
        | some e => [.logError (.wrap "error reading stdin" e)]
        | none => []
      let (tr, returned) := stdin rest
      (logged ++ .sendInput r.data :: tr, returned)

/-- The number of calls of `buf.ReadLine()` the goroutine makes on a script. -/
def reads : List Read → Nat
  | [] => 0
  | r :: rest => if r.done then 0 else 1 + reads rest

/-! ## `stream` (lines 115-190) -/

/-- The value `format` (lines 145-148). -/
def format (cfg : config) : Verb := if cfg.hex then .x else .s

/-- What `log.Error(fmt.Errorf("publish failed: %w", err))` adds to the trace
for the result `res` of `wait(ctx, client.Publish(...))`. -/
def logPublish : Option Err → List Effect
  | some e => [.logError (.wrap "publish failed" e)]
  | none => []

/-- The subscription callback (lines 151-164) on a message with payload `data`;
`res` is what `wait(ctx, client.Publish(...))` returns if it is called. -/
def callback (cfg : config) (cl : Nat) (data : Bytes) (res : Option Err) : List Effect :=
  Fprintln (Sprintf (format cfg) data) ::
    (if !cfg.echo then []
     else .publish cl cfg.to_ 0 false data :: logPublish res)

/-- The connection-lost handler (lines 130-132) on the error `err`. -/
def connectionLostHandler (err : Err) : List Effect :=
  [.sendConnErr (.wrap "connection lost" err)]

/-- The event that one round of the select loop (lines 171-188) services. -/
inductive Event where
  /-- The case `<-ctx.Done()`. -/
  | cancel
  /-- The case `err := <-connErr`; `err` is the value received. -/
  | connLost (err : Err)
  /-- The case `data := <-input`; `res` is what `wait(ctx, client.Publish(...))`
  returns if it is called. -/
  | line (data : Bytes) (res : Option Err)
  deriving DecidableEq, Repr

/-- How a round of the select loop ends. -/
inductive Next where
  /-- The loop goes on to its next round. -/
  | again
  /-- The statement `return r`. -/
  | ret (r : Option Err)
  deriving DecidableEq, Repr

/-- One round of the select loop (lines 171-188). -/
def round (cfg : config) (cl : Nat) : Event → List Effect × Next
  | .cancel => ([], .ret none)
  | .connLost err => ([], .ret (some err))
  | .line data res =>
    if cfg.hex then
      match DecodeString data with
      | .error e => ([], .ret (some e))
      | .ok decoded => (.publish cl cfg.to_ 0 false decoded :: logPublish res, .again)
    else (.publish cl cfg.to_ 0 false data :: logPublish res, .again)

/-- The select loop (lines 170-189) over the events of a script: its trace, and
what it returns (`none`: it is waiting for a further event). -/
def loop (cfg : config) (cl : Nat) : List Event → List Effect × Option (Option Err)
  | [] => ([], none)
  | ev :: rest =>
    match round cfg cl ev with
    | (tr, .ret r) => (tr, some r)
    | (tr, .again) =>
      let (tr2, r) := loop cfg cl rest
      (tr ++ tr2, r)

/-- What one call of `stream` observes: the client handle made by
`mqtt.NewClient`, the results of `wait(ctx, client.Connect())` and of
`wait(ctx, client.Subscribe(...))`, and the events the select loop services. -/
structure Session where
  client : Nat
  connect : Option Err
  subscribe : Option Err
  events : List Event
  deriving DecidableEq, Repr

/-- The deferred calls of `stream`, in the order they run at a return. -/
def deferred (cl : Nat) : List Effect := [.disconnect cl 1000, .closeConnErr]

/-- The function `stream`: its trace, and what it returns (`none`: it is in its
select loop, waiting for a further event). -/
def stream (cfg : config) (s : Session) : List Effect × Option (Option Err) :=
  match s.connect with
  | some e =>
    (.connect s.client :: deferred s.client, some (some (.wrap "connect failed" e)))
  | none =>
    match s.subscribe with
    | some e =>
      (.connect s.client :: .subscribe s.client cfg.from_ 0 :: deferred s.client,
        some (some (.wrap "subscribe failed" e)))
    | none =>
      let start : List Effect :=
        [.connect s.client, .subscribe s.client cfg.from_ 0,
          .logDebug ("subscribed to " ++ cfg.from_ ++ ", publishing to " ++ cfg.to_)]
      match loop cfg s.client s.events with
      | (tr, some r) => (start ++ tr ++ deferred s.client, some r)
      | (tr, none) => (start ++ tr, none)

/-! ## `main` (lines 66-78) -/

/-- What one round of the reconnect loop observes: whether `ctx.Done()` is
ready at the top of the round, and the session that `stream` runs if it is
called. -/
structure Attempt where
  done : Bool
  session : Session
  deriving DecidableEq, Repr

/-- The reconnect loop of `main` over the rounds of a script: its trace, and
whether `main` has returned. -/
def main (cfg : config) : List Attempt → List Effect × Bool
  | [] => ([], false)
  | a :: rest =>
    if a.done then ([], true)
    else
      let dbg : Effect := .logDebug ("connecting to " ++ cfg.host ++ "...")
      match stream cfg a.session with
      | (tr, none) => (dbg :: tr, false)
      | (tr, some none) => (dbg :: tr, true)
      | (tr, some (some err)) =>
        let (tr2, returned) := main cfg rest
        (dbg :: tr ++ .logError err :: tr2, returned)

/-! ## Reading a trace -/

/-- The publish calls of a trace: client, topic and payload. -/
def publishes : List Effect → List (Nat × String × Bytes)
  | [] => []
  | .publish cl topic _ _ payload :: rest => (cl, topic, payload) :: publishes rest
  | _ :: rest => publishes rest

/-- The connect and disconnect calls of a trace. -/
def connection : List Effect → List Effect
  | [] => []
  | .connect cl :: rest => .connect cl :: connection rest
  | .disconnect cl q :: rest => .disconnect cl q :: connection rest
  | _ :: rest => connection rest

/-- The lines sent on the channel of lines in a trace. -/
def delivered : List Effect → List Bytes
  | [] => []
  | .sendInput data :: rest => data :: delivered rest
  | _ :: rest => delivered rest

/-! ## The words of the specification -/

/-- The hexadecimal digits `0-9`, `a-f`, `A-F`. -/
def hexDigits : Bytes :=
  [48, 49, 50, 51, 52, 53, 54, 55, 56, 57, 97, 98, 99, 100, 101, 102, 65, 66, 67, 68, 69, 70]

/-- The digits `0-9A-F`, in the order of their values. -/
def udigits : Bytes := [48, 49, 50, 51, 52, 53, 54, 55, 56, 57, 65, 66, 67, 68, 69, 70]

/-- The value of a hexadecimal digit: its place among `0-9a-f` or among
`0-9A-F`. -/
def hexValue (c : Nat) : Nat := min (ldigits.indexOf c) (udigits.indexOf c)

/-- The standard hexadecimal decoding of a string of digits: a byte for every
two digits, the first digit the high half. -/
def stdHexDecode : Bytes → Bytes
  | hi :: lo :: rest => (16 * hexValue hi + hexValue lo) :: stdHexDecode rest
  | _ => []

/-- The lowercase hexadecimal digit of a value below 16. -/
def lowerDigit (d : Nat) : Nat := if d < 10 then 48 + d else 97 + (d - 10)

/-- The lowercase hexadecimal encoding of a byte string: two digits per byte. -/
def lowerHex (bs : Bytes) : Bytes := bs.flatMap fun b => [lowerDigit (b / 16), lowerDigit (b % 16)]

/-- An error of hexadecimal decoding. -/
def IsDecodeError (e : Err) : Prop := e = .errLength ∨ ∃ b, e = .invalidByte b

/-- The lines that the select loop consumes and publishes when it decodes
nothing: the lines it receives before it first services another event. -/
def consumed : List Event → List Bytes
  | .line data _ :: rest => data :: consumed rest
  | _ => []

/-- The writes to standard output of a trace. -/
def stdouts : List Effect → List Bytes
  | [] => []
  | .stdout bytes :: rest => bytes :: stdouts rest
  | _ :: rest => stdouts rest

/-- The number of connect calls of a trace: the sessions started. -/
def connects : List Effect → Nat
  | [] => 0
  | .connect _ :: rest => connects rest + 1
  | _ :: rest => connects rest

/-- The number of disconnect calls of a trace. -/
def disconnects : List Effect → Nat
  | [] => 0
  | .disconnect _ _ :: rest => disconnects rest + 1
  | _ :: rest => disconnects rest

/-- Connect and disconnect calls alternate in a list of such calls: from
`none` (no session is connected) the next call is a connect, from `some cl`
(the session of client `cl` is connected) the next call disconnects `cl`. -/
def alternates : Option Nat → List Effect → Bool
  | _, [] => true
  | none, .connect cl :: rest => alternates (some cl) rest
  | some cl, .disconnect cl2 _ :: rest => cl == cl2 && alternates none rest
  | _, _ => false

/-- Cancellation is not observed at the top of round `k` of the reconnect loop. -/
def live (as : List Attempt) (k : Nat) : Prop := ∃ a, as[k]? = some a ∧ a.done = false

/-- The session of round `k` returns an error. -/
def failed (cfg : config) (as : List Attempt) (k : Nat) : Prop :=
  ∃ a e, as[k]? = some a ∧ (stream cfg a.session).2 = some (some e)

/-- The sentence of the specification on raw mode, as it is written: in raw mode the publishes of the select
loop are the consumed lines, in order, each to `cfg.to`, and none of them is to
`cfg.from`. -/
def RawPublishClaim (cfg : config) (cl : Nat) (evs : List Event) : Prop :=
  publishes (loop cfg cl evs).1 = (consumed evs).map (fun l => (cl, cfg.to_, l)) ∧
    ∀ p ∈ publishes (loop cfg cl evs).1, p.2.1 ≠ cfg.from_

/-- The default configuration of the flags (lines 31-38) with a fixed client id. -/
def cfgRaw : config :=
  ⟨"tcp://test.mosquitto.org:1883", "bar", "foo", "mqtt-stream-000000000000", "", "", false, false⟩

/-- The default configuration with `-from foo`: both topics are `foo`. -/
def cfgSame : config := { cfgRaw with from_ := "foo" }

/-- The default configuration with `-hex`. -/
def cfgHex : config := { cfgRaw with hex := true }

/-- The bytes of `hello`. -/
def hello : Bytes := [104, 101, 108, 108, 111]

/-- The bytes of `68656c6c6f`. -/
def helloHex : Bytes := [54, 56, 54, 53, 54, 99, 54, 99, 54, 102]

/-- The bytes of `zz`. -/
def zz : Bytes := [122, 122]

/-- A read that fails with end of stream; `ctx.Done()` is not ready. -/
def eof : Read := ⟨false, [], some (.other "EOF")⟩

/-- A token that completes with an error during the third poll. -/
def tokenFails : WaitEnv := ⟨fun i => decide (2 ≤ i), fun _ => none, some (.other "refused")⟩

/-- A token that never completes under a context cancelled during the second poll. -/
def tokenPending : WaitEnv :=
  ⟨fun _ => false, fun i => if 1 ≤ i then some .canceled else none, some (.other "late")⟩

/-- The number of lines in the bytes written to a stream: one for every newline
byte. -/
def lineCount (out : Bytes) : Nat := out.count 10

/-- The sentence of the specification on the output of the callback, as it is
written: one write, of the payload (raw mode) or of its lowercase hexadecimal
encoding (hex mode) followed by a newline, and that write is exactly one line. -/
def PrintClaim (cfg : config) (cl : Nat) (P : Bytes) (res : Option Err) : Prop :=
  stdouts (callback cfg cl P res) = [(if cfg.hex then lowerHex P else P) ++ [10]] ∧
    lineCount ((if cfg.hex then lowerHex P else P) ++ [10]) = 1

/-- The bytes of `a`, a newline and `b`. -/
def twoLines : Bytes := [97, 10, 98]

/-- The bytes of `abc`. -/
def abc : Bytes := [97, 98, 99]

/-- The bytes of `616263`. -/
def abcHex : Bytes := [54, 49, 54, 50, 54, 51]

/-! ## Hexadecimal decoding and encoding -/

theorem fromHexChar_small :
    ∀ c < 128, fromHexChar c = if c ∈ hexDigits then some (hexValue c) else none := by
  decide

theorem hexValue_small : ∀ c < 128, c ∈ hexDigits → hexValue c < 16 := by
  decide

theorem not_hexDigit_of_large (c : Nat) (h : 128 ≤ c) : c ∉ hexDigits := by
  intro hm
  simp [hexDigits] at hm
  omega

theorem fromHexChar_eq (c : Nat) :
    fromHexChar c = if c ∈ hexDigits then some (hexValue c) else none := by
  by_cases h : c < 128
  · exact fromHexChar_small c h
  · have hn := not_hexDigit_of_large c (by omega)
    have : fromHexChar c = none := by
      unfold fromHexChar
      rw [if_neg (by omega), if_neg (by omega), if_neg (by omega)]
    rw [this, if_neg hn]

theorem hexValue_lt (c : Nat) (h : c ∈ hexDigits) : hexValue c < 16 := by
  by_cases hc : c < 128
  · exact hexValue_small c hc h
  · exact absurd h (not_hexDigit_of_large c (by omega))

theorem Decode_ok : ∀ (l : Bytes), l.length % 2 = 0 → (∀ c ∈ l, c ∈ hexDigits) →
    Decode l = .ok (stdHexDecode l)
  | [], _, _ => rfl
  | [_], h, _ => by simp at h
  | p :: q :: rest, h, hd => by
    have hp : p ∈ hexDigits := hd p (by simp)
    have hq : q ∈ hexDigits := hd q (by simp)
    have hlen : rest.length % 2 = 0 := by
      simp only [List.length_cons] at h
      omega
    have ih := Decode_ok rest hlen (fun c hc => hd c (by simp [hc]))
    have h1 := hexValue_lt p hp
    have h2 := hexValue_lt q hq
    have hmod : (hexValue p * 16 + hexValue q) % 256 = 16 * hexValue p + hexValue q := by
      omega
    simp only [Decode, fromHexChar_eq, if_pos hp, if_pos hq, ih, stdHexDecode, hmod]

theorem Decode_error : ∀ (l : Bytes), (l.length % 2 = 1 ∨ ∃ c ∈ l, c ∉ hexDigits) →
    ∃ e, Decode l = .error e ∧ IsDecodeError e
  | [], h => by simp at h
  | [p], _ => by
    by_cases hp : p ∈ hexDigits
    · exact ⟨.errLength, by simp only [Decode, fromHexChar_eq, if_pos hp], Or.inl rfl⟩
    · exact ⟨.invalidByte p, by simp only [Decode, fromHexChar_eq, if_neg hp], Or.inr ⟨p, rfl⟩⟩
  | p :: q :: rest, h => by
    by_cases hp : p ∈ hexDigits
    · by_cases hq : q ∈ hexDigits
      · have hrest : rest.length % 2 = 1 ∨ ∃ c ∈ rest, c ∉ hexDigits := by
          rcases h with h | ⟨c, hc, hn⟩
          · left
            simp only [List.length_cons] at h
            omega
          · right
            simp only [List.mem_cons] at hc
            rcases hc with rfl | rfl | hc
            · exact absurd hp hn
            · exact absurd hq hn
            · exact ⟨c, hc, hn⟩
        obtain ⟨e, he, hde⟩ := Decode_error rest hrest
        exact ⟨e, by simp only [Decode, fromHexChar_eq, if_pos hp, if_pos hq, he], hde⟩
      · exact ⟨.invalidByte q,
          by simp only [Decode, fromHexChar_eq, if_pos hp, if_neg hq], Or.inr ⟨q, rfl⟩⟩
    · exact ⟨.invalidByte p, by simp only [Decode, fromHexChar_eq, if_neg hp], Or.inr ⟨p, rfl⟩⟩

/-! ## The select loop -/

theorem publishes_append (a b : List Effect) :
    publishes (a ++ b) = publishes a ++ publishes b := by
  induction a with
  | nil => rfl
  | cons e a ih => cases e <;> simp [publishes, ih]

theorem publishes_logPublish (res : Option Err) : publishes (logPublish res) = [] := by
  cases res <;> rfl

theorem loop_cons_again (cfg : config) (cl : Nat) (ev : Event) (rest : List Event)
    (tr : List Effect) (h : round cfg cl ev = (tr, .again)) :
    loop cfg cl (ev :: rest) = (tr ++ (loop cfg cl rest).1, (loop cfg cl rest).2) := by
  simp only [loop, h]

theorem loop_cons_ret (cfg : config) (cl : Nat) (ev : Event) (rest : List Event)
    (tr : List Effect) (r : Option Err) (h : round cfg cl ev = (tr, .ret r)) :
    loop cfg cl (ev :: rest) = (tr, some r) := by
  simp only [loop, h]

theorem loop_append (cfg : config) (cl : Nat) (pre post : List Event)
    (h : (loop cfg cl pre).2 = none) :
    loop cfg cl (pre ++ post) =
      ((loop cfg cl pre).1 ++ (loop cfg cl post).1, (loop cfg cl post).2) := by
  induction pre with
  | nil => simp [loop]
  | cons ev pre ih =>
    rcases hr : round cfg cl ev with ⟨tr, nx⟩
    cases nx with
    | again =>
      rw [loop_cons_again cfg cl ev pre tr hr] at h
      rw [List.cons_append, loop_cons_again cfg cl ev (pre ++ post) tr hr,
        loop_cons_again cfg cl ev pre tr hr, ih h, List.append_assoc]
    | ret r =>
      rw [loop_cons_ret cfg cl ev pre tr r hr] at h
      simp at h

theorem stream_active (cfg : config) (s : Session) (hc : s.connect = none)
    (hs : s.subscribe = none) :
    stream cfg s =
      match loop cfg s.client s.events with
      | (tr, some r) =>
        ([.connect s.client, .subscribe s.client cfg.from_ 0,
          .logDebug ("subscribed to " ++ cfg.from_ ++ ", publishing to " ++ cfg.to_)] ++ tr ++
            deferred s.client, some r)
      | (tr, none) =>
        ([.connect s.client, .subscribe s.client cfg.from_ 0,
          .logDebug ("subscribed to " ++ cfg.from_ ++ ", publishing to " ++ cfg.to_)] ++ tr, none) := by
  simp only [stream, hc, hs]

theorem publishes_stream (cfg : config) (s : Session) (hc : s.connect = none)
    (hs : s.subscribe = none) :
    publishes (stream cfg s).1 = publishes (loop cfg s.client s.events).1 ∧
      (stream cfg s).2 = (loop cfg s.client s.events).2 := by
  rw [stream_active cfg s hc hs]
  rcases loop cfg s.client s.events with ⟨tr, r⟩
  cases r <;> simp [publishes_append, publishes, deferred]

theorem round_hex_ok (cfg : config) (cl : Nat) (line : Bytes) (res : Option Err)
    (hhex : cfg.hex = true) (hlen : line.length % 2 = 0) (hd : ∀ c ∈ line, c ∈ hexDigits) :
    round cfg cl (.line line res) =
      (.publish cl cfg.to_ 0 false (stdHexDecode line) :: logPublish res, .again) := by
  simp only [round, hhex, DecodeString, Decode_ok line hlen hd, if_true]

theorem round_hex_error (cfg : config) (cl : Nat) (line : Bytes) (res : Option Err)
    (hhex : cfg.hex = true) (hbad : line.length % 2 = 1 ∨ ∃ c ∈ line, c ∉ hexDigits) :
    ∃ e, IsDecodeError e ∧ round cfg cl (.line line res) = ([], .ret (some e)) := by
  obtain ⟨e, he, hde⟩ := Decode_error line hbad
  exact ⟨e, hde, by simp only [round, hhex, DecodeString, he, if_true]⟩

/-- C1. Hex mode, a line received by the select loop of a connected and
subscribed session.  When the line is an even-length string of hexadecimal
digits, the round issues exactly one publish, to `cfg.to`, of the standard
hexadecimal decoding of the line, and the loop goes on.  When the line has odd
length or holds a byte that is no hexadecimal digit, `stream` returns a decode
error and its publishes are those of the lines before. -/
theorem hex_line_publish (cfg : config) (s : Session) (pre post : List Event) (line : Bytes)
    (res : Option Err) (hhex : cfg.hex = true) (hc : s.connect = none)
    (hs : s.subscribe = none) (hev : s.events = pre ++ .line line res :: post)
    (hpre : (loop cfg s.client pre).2 = none) :
    ((line.length % 2 = 0 ∧ ∀ c ∈ line, c ∈ hexDigits) →
      round cfg s.client (.line line res) =
          (.publish s.client cfg.to_ 0 false (stdHexDecode line) :: logPublish res, .again) ∧
        publishes (stream cfg s).1 =
          publishes (loop cfg s.client pre).1 ++
            (s.client, cfg.to_, stdHexDecode line) :: publishes (loop cfg s.client post).1 ∧
        (stream cfg s).2 = (loop cfg s.client post).2) ∧
    ((line.length % 2 = 1 ∨ ∃ c ∈ line, c ∉ hexDigits) →
      ∃ e, IsDecodeError e ∧ round cfg s.client (.line line res) = ([], .ret (some e)) ∧
        (stream cfg s).2 = some (some e) ∧
        publishes (stream cfg s).1 = publishes (loop cfg s.client pre).1) := by
  obtain ⟨hp, hr⟩ := publishes_stream cfg s hc hs
  rw [hp, hr, hev, loop_append cfg s.client pre _ hpre]
  constructor
  · rintro ⟨hlen, hd⟩
    have h := round_hex_ok cfg s.client line res hhex hlen hd
    refine ⟨h, ?_, ?_⟩
    · rw [loop_cons_again cfg s.client _ post _ h]
      simp [publishes_append, publishes, publishes_logPublish]
    · rw [loop_cons_again cfg s.client _ post _ h]
  · intro hbad
    obtain ⟨e, hde, h⟩ := round_hex_error cfg s.client line res hhex hbad
    refine ⟨e, hde, h, ?_, ?_⟩
    · rw [loop_cons_ret cfg s.client _ post _ _ h]
    · rw [loop_cons_ret cfg s.client _ post _ _ h]
      simp [publishes_append, publishes]

/-- The line `68656c6c6f` publishes `hello` to `foo`; the line `zz` after it
makes `stream` return `hex.InvalidByteError('z')` with no further publish. -/
theorem hex_line_publish_witness :
    (publishes (stream cfgHex ⟨7, none, none, [.line helloHex none, .line zz none]⟩).1 =
        [(7, "foo", hello)]) ∧
      (stream cfgHex ⟨7, none, none, [.line helloHex none, .line zz none]⟩).2 =
        some (some (.invalidByte 122)) ∧
      round cfgHex 7 (.line helloHex none) = ([.publish 7 "foo" 0 false hello], .again) ∧
      ∃ e, IsDecodeError e ∧ round cfgHex 7 (.line zz none) = ([], .ret (some e)) := by
  have h1 := (hex_line_publish cfgHex ⟨7, none, none, [.line helloHex none, .line zz none]⟩
    [] [.line zz none] helloHex none rfl rfl rfl rfl rfl).1 ⟨by decide, by decide⟩
  have h2 := (hex_line_publish cfgHex ⟨7, none, none, [.line helloHex none, .line zz none]⟩
    [.line helloHex none] [] zz none rfl rfl rfl rfl rfl).2 (Or.inr ⟨122, by decide, by decide⟩)
  obtain ⟨e, hde, hround, _, _⟩ := h2
  exact ⟨by decide, by decide, h1.1, e, hde, hround⟩

theorem round_raw (cfg : config) (cl : Nat) (data : Bytes) (res : Option Err)
    (hraw : cfg.hex = false) :
    round cfg cl (.line data res) =
      (.publish cl cfg.to_ 0 false data :: logPublish res, .again) := by
  simp [round, hraw]

theorem publishes_loop_raw (cfg : config) (cl : Nat) (hraw : cfg.hex = false)
    (evs : List Event) :
    publishes (loop cfg cl evs).1 = (consumed evs).map fun l => (cl, cfg.to_, l) := by
  induction evs with
  | nil => rfl
  | cons ev rest ih =>
    cases ev with
    | cancel => rfl
    | connLost err => rfl
    | line data res =>
      rw [loop_cons_again cfg cl _ rest _ (round_raw cfg cl data res hraw)]
      simp [publishes_append, publishes, publishes_logPublish, consumed, ih]

/-- C2, counterexample.  With `-from foo -to foo` in raw mode the line `hello`
is published once, to `foo`, which is `cfg.from`: the sentence of the
specification fails there. -/
theorem raw_publish_to_from :
    cfgSame.hex = false ∧
      publishes (loop cfgSame 7 [.line hello none]).1 = [(7, cfgSame.from_, hello)] ∧
      ¬ RawPublishClaim cfgSame 7 [.line hello none] :=
  ⟨rfl, by decide, fun h => h.2 (7, "foo", hello) (by decide) rfl⟩

/-- C2, amended.  In raw mode, for every sequence of events the select loop
services, its publishes are the lines it consumed, in order, one publish per
line, each to `cfg.to` with the line as payload; so every publish is to
`cfg.to`, and none is to `cfg.from` when the two topics differ. -/
theorem raw_lines_published (cfg : config) (cl : Nat) (evs : List Event)
    (hraw : cfg.hex = false) :
    publishes (loop cfg cl evs).1 = (consumed evs).map (fun l => (cl, cfg.to_, l)) ∧
      (∀ p ∈ publishes (loop cfg cl evs).1, p.2.1 = cfg.to_) ∧
      (cfg.from_ ≠ cfg.to_ → ∀ p ∈ publishes (loop cfg cl evs).1, p.2.1 ≠ cfg.from_) := by
  have h := publishes_loop_raw cfg cl hraw evs
  have hto : ∀ p ∈ publishes (loop cfg cl evs).1, p.2.1 = cfg.to_ := by
    intro p hp
    rw [h, List.mem_map] at hp
    obtain ⟨l, _, rfl⟩ := hp
    rfl
  refine ⟨h, hto, ?_⟩
  intro hne p hp heq
  exact hne (heq.symm.trans (hto p hp))

/-- The line `hello` in raw mode with the default topics: exactly one publish,
of `hello` to `foo`, and none to `bar`. -/
theorem raw_lines_published_witness :
    publishes (loop cfgRaw 7 [.line hello none]).1 = [(7, "foo", hello)] ∧
      ∀ p ∈ publishes (loop cfgRaw 7 [.line hello none]).1, p.2.1 ≠ "bar" :=
  ⟨(raw_lines_published cfgRaw 7 [.line hello none] rfl).1,
    (raw_lines_published cfgRaw 7 [.line hello none] rfl).2.2 (by decide)⟩

/-- C4. One round of the select loop returns nil exactly on cancellation,
returns a non-nil error exactly on the connection-lost signal or on a line that
fails to decode in hex mode, and goes on in every other case; whatever
`wait` returns for the publish of a line, the round is the same but for the
log, so a publish failure never makes the loop return.  The value received on
the connection-lost signal is the non-nil error that the handler sent. -/
theorem round_transitions (cfg : config) (cl : Nat) (ev : Event) :
    ((round cfg cl ev).2 = .ret none ↔ ev = .cancel) ∧
      ((∃ e, (round cfg cl ev).2 = .ret (some e)) ↔
        ((∃ err, ev = .connLost err) ∨
          ∃ data res e, ev = .line data res ∧ cfg.hex = true ∧ DecodeString data = .error e)) ∧
      ((round cfg cl ev).2 = .again ↔
        ∃ data res, ev = .line data res ∧
          (cfg.hex = false ∨ ∃ decoded, DecodeString data = .ok decoded)) ∧
      (∀ rest, (round cfg cl ev).2 = .again →
        (loop cfg cl (ev :: rest)).2 = (loop cfg cl rest).2) ∧
      (∀ rest r, (round cfg cl ev).2 = .ret r → (loop cfg cl (ev :: rest)).2 = some r) ∧
      (∀ cause, connectionLostHandler cause = [.sendConnErr (.wrap "connection lost" cause)] ∧
        (round cfg cl (.connLost (.wrap "connection lost" cause))).2 =
          .ret (some (.wrap "connection lost" cause))) ∧
      (∀ data res res2, (round cfg cl (.line data res)).2 = (round cfg cl (.line data res2)).2) ∧
      (∀ data res, (round cfg cl (.line data res)).2 = .again →
        ∀ e, (round cfg cl (.line data (some e))).2 = .again ∧
          ∃ payload, (round cfg cl (.line data (some e))).1 =
            [.publish cl cfg.to_ 0 false payload, .logError (.wrap "publish failed" e)]) := by
  have hline : ∀ data res res2,
      (round cfg cl (.line data res)).2 = (round cfg cl (.line data res2)).2 := by
    intro data res res2
    cases hh : cfg.hex
    · simp [round, hh]
    · cases hd : DecodeString data <;> simp [round, hh, hd]
  have hgo : ∀ rest, (round cfg cl ev).2 = .again →
      (loop cfg cl (ev :: rest)).2 = (loop cfg cl rest).2 := by
    intro rest h
    rcases hr : round cfg cl ev with ⟨tr, nx⟩
    rw [hr] at h
    cases h
    rw [loop_cons_again cfg cl ev rest tr hr]
  have hret : ∀ rest r, (round cfg cl ev).2 = .ret r →
      (loop cfg cl (ev :: rest)).2 = some r := by
    intro rest r h
    rcases hr : round cfg cl ev with ⟨tr, nx⟩
    rw [hr] at h
    cases h
    rw [loop_cons_ret cfg cl ev rest tr r hr]
  refine ⟨?_, ?_, ?_, hgo, hret, fun cause => ⟨rfl, rfl⟩, hline, ?_⟩
  · cases ev with
    | cancel => simp [round]
    | connLost err => simp [round]
    | line data res =>
      cases hh : cfg.hex
      · simp [round, hh]
      · cases hd : DecodeString data <;> simp [round, hh, hd]
  · cases ev with
    | cancel => simp [round]
    | connLost err => simp [round]
    | line data res =>
      cases hh : cfg.hex
      · simp [round, hh]
      · cases hd : DecodeString data <;> simp [round, hh, hd]
  · cases ev with
    | cancel => simp [round]
    | connLost err => simp [round]
    | line data res =>
      cases hh : cfg.hex
      · simp [round, hh]
      · cases hd : DecodeString data <;> simp [round, hh, hd]
  · intro data res h e
    rw [hline data (some e) res]
    refine ⟨h, ?_⟩
    cases hh : cfg.hex
    · exact ⟨data, by simp [round, hh, logPublish]⟩
    · cases hd : DecodeString data with
      | error err => simp [round, hh, hd] at h
      | ok decoded => exact ⟨decoded, by simp [round, hh, hd, logPublish]⟩

/-! ## Teardown and the reconnect loop -/

theorem connection_append (a b : List Effect) :
    connection (a ++ b) = connection a ++ connection b := by
  induction a with
  | nil => rfl
  | cons e a ih => cases e <;> simp [connection, ih]

theorem connection_logPublish (res : Option Err) : connection (logPublish res) = [] := by
  cases res <;> rfl

theorem connection_round (cfg : config) (cl : Nat) (ev : Event) :
    connection (round cfg cl ev).1 = [] := by
  cases ev with
  | cancel => rfl
  | connLost err => rfl
  | line data res =>
    cases hh : cfg.hex
    · simp [round, hh, connection, connection_logPublish]
    · cases hd : DecodeString data <;>
        simp [round, hh, hd, connection, connection_logPublish]

theorem connection_loop (cfg : config) (cl : Nat) (evs : List Event) :
    connection (loop cfg cl evs).1 = [] := by
  induction evs with
  | nil => rfl
  | cons ev rest ih =>
    have h := connection_round cfg cl ev
    rcases hr : round cfg cl ev with ⟨tr, nx⟩
    rw [hr] at h
    cases nx with
    | again =>
      rw [loop_cons_again cfg cl ev rest tr hr, connection_append, h, ih]
      rfl
    | ret r =>
      rw [loop_cons_ret cfg cl ev rest tr r hr]
      exact h

theorem connection_stream_returned (cfg : config) (s : Session) (r : Option Err)
    (h : (stream cfg s).2 = some r) :
    connection (stream cfg s).1 = [.connect s.client, .disconnect s.client 1000] ∧
      ∃ tr, (stream cfg s).1 = .connect s.client :: tr ++ deferred s.client := by
  cases hc : s.connect with
  | some e =>
    have : stream cfg s =
        (.connect s.client :: deferred s.client, some (some (.wrap "connect failed" e))) := by
      simp only [stream, hc]
    rw [this]
    exact ⟨rfl, [], rfl⟩
  | none =>
    cases hs : s.subscribe with
    | some e =>
      have : stream cfg s =
          (.connect s.client :: .subscribe s.client cfg.from_ 0 :: deferred s.client,
            some (some (.wrap "subscribe failed" e))) := by
        simp only [stream, hc, hs]
      rw [this]
      exact ⟨rfl, [.subscribe s.client cfg.from_ 0], rfl⟩
    | none =>
      have hst := stream_active cfg s hc hs
      have hl := connection_loop cfg s.client s.events
      rcases hloop : loop cfg s.client s.events with ⟨tr, rr⟩
      rw [hloop] at hst hl
      cases rr with
      | none =>
        rw [hst] at h
        simp at h
      | some r2 =>
        rw [hst]
        simp only at hl ⊢
        refine ⟨?_, .subscribe s.client cfg.from_ 0 ::
          .logDebug ("subscribed to " ++ cfg.from_ ++ ", publishing to " ++ cfg.to_) :: tr,
          by simp⟩
        simp [connection_append, connection, hl, deferred]

theorem connection_stream_running (cfg : config) (s : Session)
    (h : (stream cfg s).2 = none) :
    connection (stream cfg s).1 = [.connect s.client] := by
  cases hc : s.connect with
  | some e => simp [stream, hc] at h
  | none =>
    cases hs : s.subscribe with
    | some e => simp [stream, hc, hs] at h
    | none =>
      have hst := stream_active cfg s hc hs
      have hl := connection_loop cfg s.client s.events
      rcases hloop : loop cfg s.client s.events with ⟨tr, rr⟩
      rw [hloop] at hst hl
      cases rr with
      | none =>
        rw [hst]
        simp only at hl ⊢
        simp [connection_append, connection, hl]
      | some r2 =>
        rw [hst] at h
        simp at h

theorem main_done (cfg : config) (a : Attempt) (rest : List Attempt) (h : a.done = true) :
    main cfg (a :: rest) = ([], true) := by
  simp only [main, h, if_true]

theorem main_running (cfg : config) (a : Attempt) (rest : List Attempt)
    (h : a.done = false) (hr : (stream cfg a.session).2 = none) :
    main cfg (a :: rest) =
      (.logDebug ("connecting to " ++ cfg.host ++ "...") :: (stream cfg a.session).1, false) := by
  rcases hst : stream cfg a.session with ⟨tr, r⟩
  rw [hst] at hr
  cases hr
  simp [main, h, hst]

theorem main_clean (cfg : config) (a : Attempt) (rest : List Attempt)
    (h : a.done = false) (hr : (stream cfg a.session).2 = some none) :
    main cfg (a :: rest) =
      (.logDebug ("connecting to " ++ cfg.host ++ "...") :: (stream cfg a.session).1, true) := by
  rcases hst : stream cfg a.session with ⟨tr, r⟩
  rw [hst] at hr
  cases hr
  simp [main, h, hst]

theorem main_failed (cfg : config) (a : Attempt) (rest : List Attempt) (e : Err)
    (h : a.done = false) (hr : (stream cfg a.session).2 = some (some e)) :
    main cfg (a :: rest) =
      (.logDebug ("connecting to " ++ cfg.host ++ "...") :: (stream cfg a.session).1 ++
        .logError e :: (main cfg rest).1, (main cfg rest).2) := by
  rcases hst : stream cfg a.session with ⟨tr, r⟩
  rw [hst] at hr
  cases hr
  simp [main, h, hst]

theorem alternates_main (cfg : config) (as : List Attempt) :
    alternates none (connection (main cfg as).1) = true := by
  induction as with
  | nil => rfl
  | cons a rest ih =>
    cases hd : a.done with
    | true =>
      rw [main_done cfg a rest hd]
      rfl
    | false =>
      cases hr : (stream cfg a.session).2 with
      | none =>
        rw [main_running cfg a rest hd hr]
        simp [connection, connection_stream_running cfg a.session hr, alternates]
      | some r =>
        have hc := (connection_stream_returned cfg a.session r hr).1
        cases r with
        | none =>
          rw [main_clean cfg a rest hd hr]
          simp [connection, hc, alternates]
        | some e =>
          rw [main_failed cfg a rest e hd hr]
          simp [connection, connection_append, hc, alternates, ih]

theorem alternates_bound : ∀ (p q : List Effect) (st : Option Nat),
    alternates st (connection (p ++ q)) = true →
      (st = none → disconnects p ≤ connects p ∧ connects p ≤ disconnects p + 1) ∧
        (st ≠ none → connects p ≤ disconnects p ∧ disconnects p ≤ connects p + 1)
  | [], _, _, _ => by simp [connects, disconnects]
  | e :: p, q, st, h => by
    cases e with
    | connect cl =>
      cases st with
      | some c => simp [connection, alternates] at h
      | none =>
        simp only [List.cons_append, connection, alternates] at h
        have ih := (alternates_bound p q (some cl) h).2 (by simp)
        simp only [connects, disconnects]
        exact ⟨fun _ => ⟨by omega, by omega⟩, fun hn => absurd rfl hn⟩
    | disconnect cl quiesce =>
      cases st with
      | none => simp [connection, alternates] at h
      | some c =>
        simp only [List.cons_append, connection, alternates, Bool.and_eq_true] at h
        have ih := (alternates_bound p q none h.2).1 rfl
        simp only [connects, disconnects]
        exact ⟨fun hn => by simp at hn, fun _ => ⟨by omega, by omega⟩⟩
    | subscribe cl topic qos => exact alternates_bound p q st h
    | publish cl topic qos retained payload => exact alternates_bound p q st h
    | stdout bytes => exact alternates_bound p q st h
    | logError err => exact alternates_bound p q st h
    | logDebug msg => exact alternates_bound p q st h
    | sendConnErr err => exact alternates_bound p q st h
    | sendInput data => exact alternates_bound p q st h
    | closeConnErr => exact alternates_bound p q st h

/-- C6. Whenever `stream` returns (connect failure, subscribe failure, and every
return of the select loop: cancellation, connection lost, decode error) its
trace holds exactly one connect and one disconnect, both of the client of the
session, and the disconnect is the last call on the client before the return.
In the trace of the reconnect loop connects and disconnects alternate, each
disconnect being of the client connected last, so at every moment at most one
session is connected. -/
theorem teardown_always (cfg : config) :
    (∀ s r, (stream cfg s).2 = some r →
      connection (stream cfg s).1 = [.connect s.client, .disconnect s.client 1000] ∧
        ∃ tr, (stream cfg s).1 =
          .connect s.client :: tr ++ [.disconnect s.client 1000, .closeConnErr]) ∧
      (∀ s e, s.connect = some e → (stream cfg s).2 = some (some (.wrap "connect failed" e))) ∧
      (∀ s e, s.connect = none → s.subscribe = some e →
        (stream cfg s).2 = some (some (.wrap "subscribe failed" e))) ∧
      (∀ s, s.connect = none → s.subscribe = none →
        (stream cfg s).2 = (loop cfg s.client s.events).2) ∧
      (∀ s, (stream cfg s).2 = none → connection (stream cfg s).1 = [.connect s.client]) ∧
      (∀ as, alternates none (connection (main cfg as).1) = true) ∧
      (∀ as p q, (main cfg as).1 = p ++ q →
        disconnects p ≤ connects p ∧ connects p ≤ disconnects p + 1) := by
  refine ⟨fun s r h => connection_stream_returned cfg s r h, ?_, ?_, ?_,
    fun s h => connection_stream_running cfg s h, alternates_main cfg, ?_⟩
  · intro s e hc
    simp only [stream, hc]
  · intro s e hc hs
    simp only [stream, hc, hs]
  · intro s hc hs
    exact (publishes_stream cfg s hc hs).2
  · intro as p q hpq
    have h := alternates_main cfg as
    rw [hpq] at h
    exact (alternates_bound p q none h).1 rfl

theorem connects_append (a b : List Effect) :
    connects (a ++ b) = connects a + connects b := by
  induction a with
  | nil => simp [connects]
  | cons e a ih =>
    cases e <;> simp [connects, ih]
    omega

theorem connects_connection (tr : List Effect) : connects (connection tr) = connects tr := by
  induction tr with
  | nil => rfl
  | cons e tr ih => cases e <;> simp [connects, connection, ih]

theorem connects_stream (cfg : config) (s : Session) : connects (stream cfg s).1 = 1 := by
  rw [← connects_connection]
  cases h : (stream cfg s).2 with
  | none => rw [connection_stream_running cfg s h]; rfl
  | some r => rw [(connection_stream_returned cfg s r h).1]; rfl

theorem sessions_failed (cfg : config) (a : Attempt) (rest : List Attempt) (e : Err)
    (hd : a.done = false) (hr : (stream cfg a.session).2 = some (some e)) :
    connects (main cfg (a :: rest)).1 = connects (main cfg rest).1 + 1 := by
  have hs := connects_stream cfg a.session
  rw [main_failed cfg a rest e hd hr]
  simp [connects, connects_append, hs]
  omega

theorem sessions_last (cfg : config) (a : Attempt) (rest : List Attempt)
    (hd : a.done = false) (hr : ¬ ∃ e, (stream cfg a.session).2 = some (some e)) :
    connects (main cfg (a :: rest)).1 = 1 := by
  have hs := connects_stream cfg a.session
  cases h : (stream cfg a.session).2 with
  | none =>
    rw [main_running cfg a rest hd h]
    simp [connects, hs]
  | some r =>
    cases r with
    | none =>
      rw [main_clean cfg a rest hd h]
      simp [connects, hs]
    | some e => exact absurd ⟨e, h⟩ hr

theorem sessions_pos (cfg : config) (as : List Attempt) :
    0 < connects (main cfg as).1 ↔ live as 0 := by
  cases as with
  | nil => simp [main, connects, live]
  | cons a rest =>
    cases hd : a.done with
    | true =>
      rw [main_done cfg a rest hd]
      simp [live, hd, connects]
    | false =>
      have hl : live (a :: rest) 0 := ⟨a, by simp, hd⟩
      by_cases hf : ∃ e, (stream cfg a.session).2 = some (some e)
      · obtain ⟨e, he⟩ := hf
        rw [sessions_failed cfg a rest e hd he]
        exact ⟨fun _ => hl, fun _ => by omega⟩
      · rw [sessions_last cfg a rest hd hf]
        exact ⟨fun _ => hl, fun _ => by omega⟩

theorem sessions_succ (cfg : config) : ∀ (as : List Attempt) (k : Nat),
    k + 1 < connects (main cfg as).1 ↔
      (k < connects (main cfg as).1 ∧ failed cfg as k ∧ live as (k + 1))
  | [], k => by simp [main, connects]
  | a :: rest, k => by
    cases hd : a.done with
    | true =>
      rw [main_done cfg a rest hd]
      simp [connects]
    | false =>
      by_cases hf : ∃ e, (stream cfg a.session).2 = some (some e)
      · obtain ⟨e, he⟩ := hf
        rw [sessions_failed cfg a rest e hd he]
        cases k with
        | zero =>
          have h0 := sessions_pos cfg rest
          have hfa : failed cfg (a :: rest) 0 := ⟨a, e, by simp, he⟩
          have hlive : live (a :: rest) (0 + 1) ↔ live rest 0 := by
            simp [live]
          rw [hlive]
          constructor
          · intro h
            exact ⟨by omega, hfa, h0.mp (by omega)⟩
          · rintro ⟨_, _, hl⟩
            have := h0.mpr hl
            omega
        | succ k =>
          have ih := sessions_succ cfg rest k
          have hfail : failed cfg (a :: rest) (k + 1) ↔ failed cfg rest k := by
            simp [failed]
          have hlive : live (a :: rest) (k + 1 + 1) ↔ live rest (k + 1) := by
            simp [live]
          rw [hfail, hlive]
          constructor
          · intro h
            have := ih.mp (by omega)
            exact ⟨by omega, this.2.1, this.2.2⟩
          · rintro ⟨h1, h2, h3⟩
            have := ih.mpr ⟨by omega, h2, h3⟩
            omega
      · rw [sessions_last cfg a rest hd hf]
        constructor
        · intro h
          omega
        · rintro ⟨h1, ⟨b, e, hb, he⟩, _⟩
          have hk : k = 0 := by omega
          subst hk
          simp only [List.getElem?_cons_zero, Option.some.injEq] at hb
          subst hb
          exact absurd ⟨e, he⟩ hf

theorem main_exit_iff (cfg : config) (as : List Attempt) :
    (main cfg as).2 = true ↔
      ∃ pre a post, as = pre ++ a :: post ∧
        (∀ b ∈ pre, b.done = false ∧ ∃ e, (stream cfg b.session).2 = some (some e)) ∧
        (a.done = true ∨ (stream cfg a.session).2 = some none) := by
  induction as with
  | nil => simp [main]
  | cons a rest ih =>
    cases hd : a.done with
    | true =>
      rw [main_done cfg a rest hd]
      simp only [true_iff]
      exact ⟨[], a, rest, rfl, by simp, Or.inl hd⟩
    | false =>
      cases hr : (stream cfg a.session).2 with
      | none =>
        rw [main_running cfg a rest hd hr]
        simp only [Bool.false_eq_true, false_iff]
        rintro ⟨pre, b, post, hsplit, hpre, hb⟩
        cases pre with
        | nil =>
          simp only [List.nil_append, List.cons.injEq] at hsplit
          obtain ⟨rfl, _⟩ := hsplit
          rcases hb with hb | hb
          · rw [hd] at hb; cases hb
          · rw [hr] at hb; cases hb
        | cons c pre =>
          simp only [List.cons_append, List.cons.injEq] at hsplit
          obtain ⟨rfl, _⟩ := hsplit
          obtain ⟨e, he⟩ := (hpre a (by simp)).2
          rw [hr] at he
          cases he
      | some r =>
        cases r with
        | none =>
          rw [main_clean cfg a rest hd hr]
          simp only [true_iff]
          exact ⟨[], a, rest, rfl, by simp, Or.inr hr⟩
        | some e =>
          rw [main_failed cfg a rest e hd hr]
          simp only
          rw [ih]
          constructor
          · rintro ⟨pre, b, post, hsplit, hpre, hb⟩
            refine ⟨a :: pre, b, post, by rw [hsplit]; rfl, ?_, hb⟩
            intro c hc
            simp only [List.mem_cons] at hc
            rcases hc with rfl | hc
            · exact ⟨hd, e, hr⟩
            · exact hpre c hc
          · rintro ⟨pre, b, post, hsplit, hpre, hb⟩
            cases pre with
            | nil =>
              simp only [List.nil_append, List.cons.injEq] at hsplit
              obtain ⟨rfl, _⟩ := hsplit
              rcases hb with hb | hb
              · rw [hd] at hb; cases hb
              · rw [hr] at hb; cases hb
            | cons c pre =>
              simp only [List.cons_append, List.cons.injEq] at hsplit
              obtain ⟨rfl, hrest⟩ := hsplit
              exact ⟨pre, b, post, hrest, fun x hx => hpre x (by simp [hx]), hb⟩

theorem main_stops (cfg : config) (pre : List Attempt) (a : Attempt) (post : List Attempt)
    (h : a.done = true ∨ (stream cfg a.session).2 = some none) :
    main cfg (pre ++ a :: post) = main cfg (pre ++ [a]) := by
  induction pre with
  | nil =>
    simp only [List.nil_append]
    cases hd : a.done with
    | true => rw [main_done cfg a post hd, main_done cfg a [] hd]
    | false =>
      rcases h with h | h
      · rw [hd] at h; cases h
      · rw [main_clean cfg a post hd h, main_clean cfg a [] hd h]
  | cons b pre ih =>
    simp only [List.cons_append]
    cases hd : b.done with
    | true => rw [main_done cfg b _ hd, main_done cfg b _ hd]
    | false =>
      cases hr : (stream cfg b.session).2 with
      | none => rw [main_running cfg b _ hd hr, main_running cfg b _ hd hr]
      | some r =>
        cases r with
        | none => rw [main_clean cfg b _ hd hr, main_clean cfg b _ hd hr]
        | some e => rw [main_failed cfg b _ e hd hr, main_failed cfg b _ e hd hr, ih]

theorem stream_connLost (cfg : config) (s : Session) (pre post : List Event) (err : Err)
    (hc : s.connect = none) (hs : s.subscribe = none)
    (hev : s.events = pre ++ .connLost err :: post)
    (hpre : (loop cfg s.client pre).2 = none) :
    (stream cfg s).2 = some (some err) := by
  rw [(publishes_stream cfg s hc hs).2, hev, loop_append cfg s.client pre _ hpre,
    loop_cons_ret cfg s.client (.connLost err) post [] (some err) rfl]

/-- C5. The reconnect loop of `main` over any script of rounds.  The number of
sessions started is the number of connect calls of its trace.  A first session
is started exactly when cancellation is not observed at the top of the first
round; session `k + 2` is started exactly when session `k + 1` was started and
returned an error and cancellation is not observed at the top of the next
round.  `main` returns exactly when, after rounds that all returned an error, a
round observes cancellation or its session returns nil, and the rounds after
that one add nothing to the trace: no further session is started.  A session
that ends on the connection-lost signal returns that error and, cancellation
not being observed, is followed by a second connect, after its disconnect. -/
theorem supervisor_restarts (cfg : config) :
    (∀ as, 0 < connects (main cfg as).1 ↔ live as 0) ∧
      (∀ as k, k + 1 < connects (main cfg as).1 ↔
        (k < connects (main cfg as).1 ∧ failed cfg as k ∧ live as (k + 1))) ∧
      (∀ as, (main cfg as).2 = true ↔
        ∃ pre a post, as = pre ++ a :: post ∧
          (∀ b ∈ pre, b.done = false ∧ ∃ e, (stream cfg b.session).2 = some (some e)) ∧
          (a.done = true ∨ (stream cfg a.session).2 = some none)) ∧
      (∀ pre a post, (a.done = true ∨ (stream cfg a.session).2 = some none) →
        main cfg (pre ++ a :: post) = main cfg (pre ++ [a])) ∧
      (∀ a1 a2 rest pre post err, a1.done = false → a2.done = false →
        a1.session.connect = none → a1.session.subscribe = none →
        a1.session.events = pre ++ .connLost err :: post →
        (loop cfg a1.session.client pre).2 = none →
        (stream cfg a1.session).2 = some (some err) ∧
          ∃ tr, connection (main cfg (a1 :: a2 :: rest)).1 =
            .connect a1.session.client :: .disconnect a1.session.client 1000 ::
              .connect a2.session.client :: tr) := by
  refine ⟨sessions_pos cfg, sessions_succ cfg, main_exit_iff cfg, main_stops cfg, ?_⟩
  intro a1 a2 rest pre post err hd1 hd2 hc hs hev hpre
  have h1 := stream_connLost cfg a1.session pre post err hc hs hev hpre
  refine ⟨h1, ?_⟩
  rw [main_failed cfg a1 (a2 :: rest) err hd1 h1]
  have hc1 := (connection_stream_returned cfg a1.session _ h1).1
  cases hr : (stream cfg a2.session).2 with
  | none =>
    rw [main_running cfg a2 rest hd2 hr]
    exact ⟨[], by
      simp [connection, connection_append, hc1, connection_stream_running cfg a2.session hr]⟩
  | some r =>
    have hc2 := (connection_stream_returned cfg a2.session r hr).1
    cases r with
    | none =>
      rw [main_clean cfg a2 rest hd2 hr]
      exact ⟨[.disconnect a2.session.client 1000], by
        simp [connection, connection_append, hc1, hc2]⟩
    | some e =>
      rw [main_failed cfg a2 rest e hd2 hr]
      exact ⟨.disconnect a2.session.client 1000 :: connection (main cfg rest).1, by
        simp [connection, connection_append, hc1, hc2]⟩

/-! ## The subscription callback -/

theorem digit_table : ∀ d < 16, ldigits.getD d 0 = lowerDigit d := by
  decide

theorem digit_decodes : ∀ d < 16, fromHexChar (lowerDigit d) = some d := by
  decide

theorem digit_not_newline : ∀ d < 16, lowerDigit d ≠ 10 := by
  decide

theorem Sprintf_x_eq (P : Bytes) (hP : IsBytes P) : Sprintf .x P = lowerHex P := by
  induction P with
  | nil => rfl
  | cons b P ih =>
    have hb : b < 256 := hP b (by simp)
    have ih2 := ih (fun c hc => hP c (by simp [hc]))
    have h1 := digit_table (b / 16) (by omega)
    have h2 := digit_table (b % 16) (by omega)
    simp only [lowerHex, List.flatMap_cons] at ih2 ⊢
    simp only [Sprintf, h1, h2, ih2, List.cons_append, List.nil_append]

theorem lowerHex_length (P : Bytes) : (lowerHex P).length = 2 * P.length := by
  induction P with
  | nil => rfl
  | cons b P ih =>
    simp only [lowerHex, List.flatMap_cons] at ih ⊢
    simp only [List.cons_append, List.nil_append, List.length_cons, ih]
    omega

theorem lowerHex_decodes (P : Bytes) (hP : IsBytes P) : DecodeString (lowerHex P) = .ok P := by
  induction P with
  | nil => rfl
  | cons b P ih =>
    have hb : b < 256 := hP b (by simp)
    have ih2 := ih (fun c hc => hP c (by simp [hc]))
    have h1 := digit_decodes (b / 16) (by omega)
    have h2 := digit_decodes (b % 16) (by omega)
    have hmod : (b / 16 * 16 + b % 16) % 256 = b := by omega
    simp only [DecodeString, lowerHex, List.flatMap_cons] at ih2 ⊢
    simp [Decode, h1, h2, ih2, hmod]

theorem lowerHex_no_newline (P : Bytes) (hP : IsBytes P) : 10 ∉ lowerHex P := by
  induction P with
  | nil => simp [lowerHex]
  | cons b P ih =>
    have hb : b < 256 := hP b (by simp)
    have ih2 := ih (fun c hc => hP c (by simp [hc]))
    have h1 := digit_not_newline (b / 16) (by omega)
    have h2 := digit_not_newline (b % 16) (by omega)
    simp only [lowerHex, List.flatMap_cons] at ih2 ⊢
    simp only [List.cons_append, List.nil_append, List.mem_cons, not_or]
    exact ⟨fun h => h1 h.symm, fun h => h2 h.symm, ih2⟩

theorem stdouts_logPublish (res : Option Err) : stdouts (logPublish res) = [] := by
  cases res <;> rfl

theorem stdouts_callback (cfg : config) (cl : Nat) (P : Bytes) (res : Option Err) :
    stdouts (callback cfg cl P res) = [Sprintf (format cfg) P ++ [10]] := by
  cases he : cfg.echo <;> simp [callback, he, Fprintln, stdouts, stdouts_logPublish]

theorem lineCount_terminated (body : Bytes) : lineCount (body ++ [10]) = body.count 10 + 1 := by
  simp [lineCount, List.count_append]

/-- C7, counterexample.  In raw mode the payload `a`, newline, `b` is written
unchanged with a newline after it: the one write holds two lines, so the
sentence of the specification fails there. -/
theorem callback_prints_two_lines :
    cfgRaw.hex = false ∧ IsBytes twoLines ∧
      stdouts (callback cfgRaw 7 twoLines none) = [[97, 10, 98, 10]] ∧
      lineCount [97, 10, 98, 10] = 2 ∧
      ¬ PrintClaim cfgRaw 7 twoLines none :=
  ⟨rfl, by decide, by decide, by decide, fun h => absurd h.2 (by decide)⟩

/-- C7, amended.  For every inbound payload `P` (a byte string) the callback
makes exactly one write to standard output.  In raw mode it is `P` unchanged
followed by one newline, which holds one line more than `P` has newline bytes.
In hex mode it is the lowercase hexadecimal encoding of `P` followed by one
newline: two digits per byte, `2 * |P|` bytes that decode back to `P` and hold
no newline, so exactly one line.  The write is exactly one line, as the
specification says, in hex mode and in raw mode when `P` holds no newline
byte; in raw mode it is one line only then. -/
theorem callback_prints (cfg : config) (cl : Nat) (P : Bytes) (res : Option Err)
    (hP : IsBytes P) :
    (cfg.hex = false → stdouts (callback cfg cl P res) = [P ++ [10]] ∧
        lineCount (P ++ [10]) = P.count 10 + 1) ∧
      (cfg.hex = true → stdouts (callback cfg cl P res) = [lowerHex P ++ [10]] ∧
        lineCount (lowerHex P ++ [10]) = 1) ∧
      (lowerHex P).length = 2 * P.length ∧
      DecodeString (lowerHex P) = .ok P ∧
      10 ∉ lowerHex P ∧
      ((cfg.hex = true ∨ 10 ∉ P) → PrintClaim cfg cl P res) ∧
      (cfg.hex = false → (PrintClaim cfg cl P res ↔ 10 ∉ P)) := by
  have hnl := lowerHex_no_newline P hP
  have hraw : cfg.hex = false → stdouts (callback cfg cl P res) = [P ++ [10]] := by
    intro h
    rw [stdouts_callback]
    simp [format, h, Sprintf]
  have hhex : cfg.hex = true → stdouts (callback cfg cl P res) = [lowerHex P ++ [10]] := by
    intro h
    rw [stdouts_callback]
    simp [format, h, Sprintf_x_eq P hP]
  have hone : lineCount (lowerHex P ++ [10]) = 1 := by
    rw [lineCount_terminated, List.count_eq_zero.mpr hnl]
  have hiff : cfg.hex = false → (PrintClaim cfg cl P res ↔ 10 ∉ P) := by
    intro h
    simp only [PrintClaim, h, Bool.false_eq_true, if_false, lineCount_terminated]
    constructor
    · rintro ⟨_, hc⟩
      exact List.count_eq_zero.mp (by omega)
    · intro hn
      exact ⟨hraw h, by rw [List.count_eq_zero.mpr hn]⟩
  refine ⟨fun h => ⟨hraw h, lineCount_terminated P⟩, fun h => ⟨hhex h, hone⟩,
    lowerHex_length P, lowerHex_decodes P hP, hnl, ?_, hiff⟩
  intro h
  cases hh : cfg.hex with
  | true =>
    simp only [PrintClaim, hh, if_true]
    exact ⟨hhex hh, hone⟩
  | false =>
    rcases h with h | h
    · rw [hh] at h; cases h
    · exact (hiff hh).mpr h

/-- The payload `abc` in hex mode, echo off, prints the one line `616263` and
publishes nothing; in raw mode it prints the one line `abc`. -/
theorem callback_prints_witness :
    IsBytes abc ∧ stdouts (callback cfgHex 7 abc none) = [abcHex ++ [10]] ∧
      lineCount (abcHex ++ [10]) = 1 ∧
      publishes (callback cfgHex 7 abc none) = [] ∧
      PrintClaim cfgRaw 7 abc none :=
  ⟨by decide, ((callback_prints cfgHex 7 abc none (by decide)).2.1 rfl).1,
    ((callback_prints cfgHex 7 abc none (by decide)).2.1 rfl).2, by decide,
    (callback_prints cfgRaw 7 abc none (by decide)).2.2.2.2.2.1 (Or.inr (by decide))⟩

/-- C8. For every inbound payload `P` the callback issues no publish when echo
is off; when echo is on it issues exactly one publish, to `cfg.to`, with
payload `P` itself.  When `wait` returns an error for that publish the callback
adds one `log.Error` to what it does otherwise and nothing else.  Every call of
the callback is a write to standard output, that publish or a `log.Error`: it
sends nothing on `connErr` or on the channel of lines and disconnects nothing,
so it gives the select loop no event to return on. -/
theorem callback_echo (cfg : config) (cl : Nat) (P : Bytes) (res : Option Err) :
    (cfg.echo = false → publishes (callback cfg cl P res) = [] ∧
        callback cfg cl P res = [Fprintln (Sprintf (format cfg) P)]) ∧
      (cfg.echo = true → publishes (callback cfg cl P res) = [(cl, cfg.to_, P)]) ∧
      (cfg.echo = true → ∀ e, callback cfg cl P (some e) =
        callback cfg cl P none ++ [.logError (.wrap "publish failed" e)]) ∧
      (∀ eff ∈ callback cfg cl P res,
        (∃ b, eff = .stdout b) ∨ eff = .publish cl cfg.to_ 0 false P ∨ ∃ e, eff = .logError e) := by
  refine ⟨?_, ?_, ?_, ?_⟩
  · intro h
    simp [callback, h, Fprintln, publishes]
  · intro h
    simp [callback, h, Fprintln, publishes, publishes_logPublish]
  · intro h e
    simp [callback, h, logPublish]
  · intro eff hm
    cases he : cfg.echo with
    | false =>
      simp only [callback, he, Bool.not_false, if_true, List.mem_singleton] at hm
      exact Or.inl ⟨_, hm⟩
    | true =>
      simp only [callback, he, Bool.not_true, Bool.false_eq_true, if_false, List.mem_cons] at hm
      rcases hm with hm | hm | hm
      · exact Or.inl ⟨_, hm⟩
      · exact Or.inr (Or.inl hm)
      · cases res with
        | none => simp [logPublish] at hm
        | some e =>
          simp only [logPublish, List.mem_singleton] at hm
          exact Or.inr (Or.inr ⟨_, hm⟩)

/-! ## `wait` -/

theorem waitLoop_complete (env : WaitEnv) (k : Nat) (hk : env.poll k = true) :
    ∀ (fuel i : Nat), i ≤ k → k - i < fuel →
      (∀ j, i ≤ j → j < k → env.poll j = false ∧ env.ctxErr j = none) →
      waitLoop env fuel i = some ⟨k, true, env.tokenErr⟩
  | 0, _, _, hf, _ => by omega
  | fuel + 1, i, hi, hf, hb => by
    by_cases hik : i = k
    · subst hik
      simp [waitLoop, hk]
    · have h := hb i (le_refl i) (by omega)
      have ih := waitLoop_complete env k hk fuel (i + 1) (by omega) (by omega)
        (fun j h1 h2 => hb j (by omega) h2)
      simp [waitLoop, h.1, h.2, ih]

theorem waitLoop_ctx (env : WaitEnv) (k : Nat) (e : Err) (hk : env.poll k = false)
    (he : env.ctxErr k = some e) :
    ∀ (fuel i : Nat), i ≤ k → k - i < fuel →
      (∀ j, i ≤ j → j < k → env.poll j = false ∧ env.ctxErr j = none) →
      waitLoop env fuel i = some ⟨k + 1, false, some e⟩
  | 0, _, _, hf, _ => by omega
  | fuel + 1, i, hi, hf, hb => by
    by_cases hik : i = k
    · subst hik
      simp [waitLoop, hk, he]
    · have h := hb i (le_refl i) (by omega)
      have ih := waitLoop_ctx env k e hk he fuel (i + 1) (by omega) (by omega)
        (fun j h1 h2 => hb j (by omega) h2)
      simp [waitLoop, h.1, h.2, ih]

theorem ctxErrAt_kind (cancelAt : Option Nat) (t : Nat) (e : Err)
    (h : ctxErrAt cancelAt t = some e) : e = .canceled ∨ e = .deadlineExceeded := by
  unfold ctxErrAt at h
  cases cancelAt with
  | none =>
    simp only at h
    split at h
    · exact Or.inr (Option.some.inj h).symm
    · cases h
  | some c =>
    simp only at h
    split at h
    · exact Or.inl (Option.some.inj h).symm
    · split at h
      · exact Or.inr (Option.some.inj h).symm
      · cases h

theorem ctxErrAt_none (cancelAt : Option Nat) (t : Nat) :
    ctxErrAt cancelAt t = none ↔ (t < waitTimeout ∧ ∀ c, cancelAt = some c → t < c) := by
  unfold ctxErrAt
  cases cancelAt with
  | none =>
    simp only
    split <;> simp <;> omega
  | some c =>
    simp only
    split
    · simp; omega
    · split
      · simp; omega
      · simp; omega

/-- C9. A run of `wait` in which the polls before the k-th report not-complete
and the context has no error after them.  When the k-th poll reports
completion, `wait` returns what `token.Error()` returns: the error of the
operation, or nil.  When the k-th poll reports not-complete and the context
then has an error, `wait` returns that error whatever the outcome of the
operation is.  Under the clock model the error of the context is
`context.Canceled` or `context.DeadlineExceeded`, and there is one exactly when
the caller's context is cancelled by then or the 10 s are over. -/
theorem wait_outcome (env : WaitEnv) (k fuel : Nat) (hfuel : k < fuel)
    (hbefore : ∀ j < k, env.poll j = false ∧ env.ctxErr j = none) :
    (env.poll k = true → wait env fuel = some ⟨k, true, env.tokenErr⟩) ∧
      (env.poll k = false → ∀ e, env.ctxErr k = some e →
        ∀ t, wait { env with tokenErr := t } fuel = some ⟨k + 1, false, some e⟩) ∧
      (∀ (tm : Timing) (i : Nat) (e : Err), tm.env.ctxErr i = some e →
        e = .canceled ∨ e = .deadlineExceeded) ∧
      (∀ (tm : Timing) (i : Nat), tm.env.ctxErr i ≠ none ↔
        (waitTimeout ≤ pollInterval * (i + 1) ∨
          ∃ c, tm.cancelAt = some c ∧ c ≤ pollInterval * (i + 1))) := by
  refine ⟨?_, ?_, ?_, ?_⟩
  · intro hk
    exact waitLoop_complete env k hk fuel 0 (Nat.zero_le k) (by omega)
      (fun j _ h2 => hbefore j h2)
  · intro hk e he t
    exact waitLoop_ctx { env with tokenErr := t } k e hk he fuel 0 (Nat.zero_le k) (by omega)
      (fun j _ h2 => hbefore j h2)
  · intro tm i e h
    exact ctxErrAt_kind tm.cancelAt _ e h
  · intro tm i
    have h := ctxErrAt_none tm.cancelAt (pollInterval * (i + 1))
    show ctxErrAt tm.cancelAt (pollInterval * (i + 1)) ≠ none ↔ _
    rw [Ne, h]
    constructor
    · intro hn
      by_contra hc
      apply hn
      refine ⟨by omega, fun c hcc => ?_⟩
      by_contra hlt
      exact hc (Or.inr ⟨c, hcc, by omega⟩)
    · rintro (h1 | ⟨c, hc, hle⟩) ⟨h2, h3⟩
      · omega
      · have := h3 c hc
        omega

/-- A token that completes with an error at the third poll makes `wait` return
that error; a token that never completes under a context cancelled at the
second poll makes `wait` return `context.Canceled`, whatever the token holds. -/
theorem wait_outcome_witness :
    wait tokenFails 5 = some ⟨2, true, some (.other "refused")⟩ ∧
      ∀ t, wait { tokenPending with tokenErr := t } 5 = some ⟨2, false, some .canceled⟩ :=
  ⟨(wait_outcome tokenFails 2 5 (by decide) (by decide)).1 rfl,
    (wait_outcome tokenPending 1 5 (by decide) (by decide)).2.1 rfl .canceled rfl⟩

theorem first_return (env : WaitEnv) (n : Nat)
    (h : env.poll n = true ∨ env.ctxErr n ≠ none) :
    ∃ k, k ≤ n ∧ (∀ j < k, env.poll j = false ∧ env.ctxErr j = none) ∧
      (env.poll k = true ∨ (env.poll k = false ∧ ∃ e, env.ctxErr k = some e)) := by
  induction n using Nat.strong_induction_on with
  | _ n ih =>
    by_cases hex : ∃ j, j < n ∧ (env.poll j = true ∨ env.ctxErr j ≠ none)
    · obtain ⟨j, hj, hP⟩ := hex
      obtain ⟨k, hk, hb, hr⟩ := ih j hj hP
      exact ⟨k, by omega, hb, hr⟩
    · refine ⟨n, le_refl n, ?_, ?_⟩
      · intro j hj
        have hnot : ¬ (env.poll j = true ∨ env.ctxErr j ≠ none) := fun hP => hex ⟨j, hj, hP⟩
        constructor
        · cases hp : env.poll j with
          | false => rfl
          | true => exact absurd (Or.inl hp) hnot
        · by_contra hc
          exact hnot (Or.inr hc)
      · cases hp : env.poll n with
        | true => exact Or.inl rfl
        | false =>
          rcases h with h | h
          · rw [hp] at h; cases h
          · cases hc : env.ctxErr n with
            | none => exact absurd hc h
            | some e => exact Or.inr ⟨rfl, e, rfl⟩

theorem deadline_reached (tm : Timing) : tm.env.ctxErr 19 ≠ none := by
  show ctxErrAt tm.cancelAt (pollInterval * (19 + 1)) ≠ none
  rw [Ne, ctxErrAt_none]
  simp [pollInterval, waitTimeout]

theorem no_error_before (tm : Timing) (k : Nat) (c : Nat) (hc : tm.cancelAt = some c)
    (hb : ∀ j < k, tm.env.poll j = false ∧ tm.env.ctxErr j = none) :
    pollInterval * k ≤ c ∧ pollInterval * k ≤ waitTimeout := by
  cases k with
  | zero => simp
  | succ k =>
    have h := (hb k (by omega)).2
    have h2 : ctxErrAt tm.cancelAt (pollInterval * (k + 1)) = none := h
    rw [ctxErrAt_none] at h2
    have := h2.2 c hc
    omega

/-- C10. Under the clock model, in which a poll that reports not-complete lasts
500 ms, `wait` always returns: 21 polls are enough whatever the token and the
caller's context do, at most 20 of them report not-complete, and `wait` returns
by the deadline of 10 s.  When the caller's context is cancelled at time `c`,
`wait` returns no later than the end of the poll in progress at `c`, so within
500 ms of `c`, also when the token never completes. -/
theorem wait_bounded (tm : Timing) :
    ∃ r, (∀ fuel, 21 ≤ fuel → wait tm.env fuel = some r) ∧
      r.polls ≤ 20 ∧
      r.polls ≤ waitTimeout / pollInterval ∧
      tm.returnTime r ≤ waitTimeout ∧
      (∀ c, tm.cancelAt = some c →
        tm.returnTime r ≤ pollInterval * (c / pollInterval + 1) ∧
          tm.returnTime r ≤ c + pollInterval) := by
  obtain ⟨k, hk, hb, hr⟩ := first_return tm.env 19 (Or.inr (deadline_reached tm))
  rcases hr with hp | ⟨hp, e, he⟩
  · refine ⟨⟨k, true, tm.env.tokenErr⟩, ?_, ?_, ?_, ?_, ?_⟩
    · intro fuel hfuel
      exact waitLoop_complete tm.env k hp fuel 0 (Nat.zero_le k) (by omega)
        (fun j _ h2 => hb j h2)
    · show k ≤ 20
      omega
    · show k ≤ waitTimeout / pollInterval
      simp only [waitTimeout, pollInterval]
      omega
    · have hp2 : (match tm.completeAt with
          | some c => decide (c ≤ pollInterval * (k + 1))
          | none => false) = true := hp
      cases hca : tm.completeAt with
      | none => rw [hca] at hp2; cases hp2
      | some ca =>
        rw [hca] at hp2
        simp only [decide_eq_true_eq] at hp2
        simp only [Timing.returnTime, hca, Option.getD_some, if_true, pollInterval, waitTimeout]
          at hp2 ⊢
        omega
    · intro c hc
      have hnb := no_error_before tm k c hc hb
      have hp2 : (match tm.completeAt with
          | some c => decide (c ≤ pollInterval * (k + 1))
          | none => false) = true := hp
      cases hca : tm.completeAt with
      | none => rw [hca] at hp2; cases hp2
      | some ca =>
        rw [hca] at hp2
        simp only [decide_eq_true_eq] at hp2
        simp only [Timing.returnTime, hca, Option.getD_some, if_true, pollInterval, waitTimeout]
          at hp2 hnb ⊢
        omega
  · refine ⟨⟨k + 1, false, some e⟩, ?_, ?_, ?_, ?_, ?_⟩
    · intro fuel hfuel
      exact waitLoop_ctx tm.env k e hp he fuel 0 (Nat.zero_le k) (by omega)
        (fun j _ h2 => hb j h2)
    · show k + 1 ≤ 20
      omega
    · show k + 1 ≤ waitTimeout / pollInterval
      simp only [waitTimeout, pollInterval]
      omega
    · simp only [Timing.returnTime, Bool.false_eq_true, if_false, pollInterval, waitTimeout]
      omega
    · intro c hc
      have hnb := no_error_before tm k c hc hb
      simp only [Timing.returnTime, Bool.false_eq_true, if_false, pollInterval, waitTimeout]
        at hnb ⊢
      omega

/-! ## `stdin` -/

theorem stdin_goes_on : ∀ (script : List Read), (∀ r ∈ script, r.done = false) →
    delivered (stdin script).1 = script.map (fun r => r.data) ∧
      reads script = script.length ∧ (stdin script).2 = false
  | [], _ => ⟨rfl, rfl, rfl⟩
  | r :: rest, h => by
    have hd : r.done = false := h r (by simp)
    obtain ⟨ih1, ih2, ih3⟩ := stdin_goes_on rest (fun x hx => h x (by simp [hx]))
    refine ⟨?_, ?_, ?_⟩
    · cases he : r.err <;> simp [stdin, hd, he, delivered, ih1]
    · simp [reads, hd, ih2]
      omega
    · simp [stdin, hd, ih3]

/-- C3, the code on a failed read.  After the first read returns end of stream,
the goroutine logs the error, sends the empty `data` of that read on the channel
of lines and reads again: on a script of two failed reads it makes two reads,
delivers two lines and has not returned. -/
theorem stdin_read_error_delivers :
    stdin [eof, eof] =
        ([.logError (.wrap "error reading stdin" (.other "EOF")), .sendInput [],
          .logError (.wrap "error reading stdin" (.other "EOF")), .sendInput []], false) ∧
      reads [eof, eof] = 2 ∧
      delivered (stdin [eof, eof]).1 = [[], []] ∧
      (∀ script : List Read, (∀ r ∈ script, r.done = false) →
        (delivered (stdin script).1).length = reads script ∧ (stdin script).2 = false) := by
  refine ⟨by decide, by decide, by decide, ?_⟩
  intro script h
  obtain ⟨h1, h2, h3⟩ := stdin_goes_on script h
  exact ⟨by rw [h1, h2, List.length_map], h3⟩

end MqttStream
